import Mathlib

/-!
Verification of the bmp2c converter specification against the repository.

The repository ships a single generated artifact, `src/examples/Example16x8.c`,
produced by the bmp2c tool.  The artifact's data (the byte array, the declared
length, the dimension macros and the header comment's byte count) is embedded
below directly from that file.  The converter tool itself is not part of the
repository, so its packing, unpacking, rendering and error-handling behaviour
is modelled from the specification (each such definition is marked
`Modelled from the spec:`).
-/

set_option maxRecDepth 4096

/-- Byte values of the array `Example16x8` from `src/examples/Example16x8.c`,
in declaration order. -/
def Example16x8 : List Nat :=
  [0x00, 0x00, 0xFF, 0x81, 0x81, 0xFF, 0x00, 0x00,
   0x55, 0xAA, 0xCC, 0x33, 0x0F, 0xF0, 0x18, 0x18]

/-- Declared array length in `const unsigned char Example16x8[16]`
(`src/examples/Example16x8.c`). -/
def exampleDeclaredLength : Nat := 16

/-- Byte count stated in the header comment of `src/examples/Example16x8.c`
(`Size: 16x8 px. Bytes: 16.`). -/
def exampleHeaderByteCount : Nat := 16

/-- The macro `EXAMPLE16X8_WIDTH` from `src/examples/Example16x8.c`. -/
def EXAMPLE16X8_WIDTH : Nat := 16

/-- The macro `EXAMPLE16X8_HEIGHT` from `src/examples/Example16x8.c`. -/
def EXAMPLE16X8_HEIGHT : Nat := 8

/-- Modelled from the spec: the packing of one group of up to 8 pixels into a
byte value, with the leftmost pixel in bit 0 (least significant) and subsequent
pixels in increasing bit positions; a black pixel (`true`) contributes bit
value 1.  (The packing routine of the bmp2c tool is missing from the
repository.) -/
def packByte : List Bool → Nat
  | [] => 0
  | b :: rest => (if b then 1 else 0) + 2 * packByte rest

/-- Modelled from the spec: splitting a list into consecutive groups of `k`
elements, the last group possibly shorter ("each group of up to 8 consecutive
pixels", and the wrap of the hex dump at `values_per_line` values).  (The
grouping routine of the bmp2c tool is missing from the repository.) -/
def toChunks {α : Type} (k : Nat) : List α → List (List α)
  | [] => []
  | x :: xs => (x :: xs).take k :: toChunks k (xs.drop (k - 1))
termination_by l => l.length
decreasing_by simp [List.length_drop]; omega

/-- Modelled from the spec: packing one pixel row left-to-right into bytes.
(The packing routine of the bmp2c tool is missing from the repository.) -/
def packRow (row : List Bool) : List Nat :=
  (toChunks 8 row).map packByte

/-- Modelled from the spec: the packed byte sequence of a pixel matrix, the
concatenation of all row-bytes in row-major order, rows processed
top-to-bottom.  (The packing routine of the bmp2c tool is missing from the
repository.) -/
def pack (pixels : List (List Bool)) : List Nat :=
  (pixels.map packRow).flatten

/-- Modelled from the spec: the 8 bits of a byte, least-significant first,
as spec'd for unpacking with the same bit convention.  (The bmp2c tool's
convention, missing from the repository, is LSB-first.) -/
def byteToBits (b : Nat) : List Bool :=
  (List.range 8).map (fun i => b.testBit i)

/-- Modelled from the spec: the number of bytes per packed row,
`ceil(width/8)`.  (The bmp2c tool is missing from the repository.) -/
def bytesPerRow (w : Nat) : Nat := (w + 7) / 8

/-- Modelled from the spec: unpacking a packed byte sequence back to a pixel
matrix with the same convention (row-major, LSB-first within each byte,
black = 1), using the bitmap's width and height.  (The bmp2c tool is missing
from the repository.) -/
def unpack (w h : Nat) (bytes : List Nat) : List (List Bool) :=
  (List.range h).map (fun r =>
    ((((bytes.drop (r * bytesPerRow w)).take (bytesPerRow w)).flatMap byteToBits).take w))

/-- Modelled from the spec: the recognized configuration options of the bmp2c
tool, `emit_dims` and `values_per_line` with default 12.  (The tool is missing
from the repository.) -/
structure Options where
  emit_dims : Bool
  values_per_line : Nat := 12
deriving DecidableEq

/-- Modelled from the spec: the uppercase hexadecimal digits used by the
renderer.  (The bmp2c tool is missing from the repository.) -/
def hexDigits : List Char :=
  ['0', '1', '2', '3', '4', '5', '6', '7', '8', '9', 'A', 'B', 'C', 'D', 'E', 'F']

/-- Modelled from the spec: the uppercase hexadecimal digit of a value below
16.  (The bmp2c tool is missing from the repository.) -/
def hexDigit (n : Nat) : Char := hexDigits.getD n '?'

/-- A character that may appear as a digit of an uppercase two-digit
hexadecimal byte value. -/
def isUpperHexDigit (c : Char) : Bool :=
  c.isDigit || ('A' ≤ c && c ≤ 'F')

/-- Modelled from the spec: the renderer's formatting of one byte as `0xHH`
(uppercase hex, exactly two digits, zero-padded).  (The bmp2c tool is missing
from the repository.) -/
def hexByte (b : Nat) : String :=
  String.mk ['0', 'x', hexDigit (b / 16 % 16), hexDigit (b % 16)]

/-- Modelled from the spec: the rendered output, a declaration of the packed
byte sequence as a named constant array (its formatted element values and the
wrapped lines of the hex dump), plus optional width/height constants.  (The
bmp2c tool is missing from the repository.) -/
structure RenderedOutput where
  values : List String
  lines : List String
  widthConst : Option Nat
  heightConst : Option Nat
deriving DecidableEq

/-- Modelled from the spec: the renderer.  Values are formatted as `0xHH`,
separated by a comma and a space, wrapped at `values_per_line` values per
line; the width/height constants are appended exactly when `emit_dims` is
set.  (The bmp2c tool is missing from the repository.) -/
def render (opts : Options) (w h : Nat) (bytes : List Nat) : RenderedOutput :=
  { values := bytes.map hexByte
    lines := (toChunks opts.values_per_line (bytes.map hexByte)).map
      (fun vs => String.intercalate ", " vs)
    widthConst := if opts.emit_dims then some w else none
    heightConst := if opts.emit_dims then some h else none }

/-- Modelled from the spec: a source bitmap file as seen by the tool: header
validity, bit depth, dimensions, pixel matrix (true = black).  (The bmp2c
tool is missing from the repository.) -/
structure BmpFile where
  headerOk : Bool
  bitDepth : Nat
  width : Nat
  height : Nat
  pixels : List (List Bool)
deriving DecidableEq

/-- Modelled from the spec: the tool's environment: the source file (`none`
when it cannot be read), whether the destination can be written, and the
destination's current contents (`none` when it does not exist).  (The bmp2c
tool is missing from the repository.) -/
structure World where
  source : Option BmpFile
  destWritable : Bool
  dest : Option RenderedOutput
deriving DecidableEq

/-- Modelled from the spec: the error taxonomy, `FormatError` (unsupported
bit depth, corrupt header, zero dimensions) and `IOError` (read/write
failure).  (The bmp2c tool is missing from the repository.) -/
inductive ConvError where
  | formatError
  | ioError
deriving DecidableEq

/-- Modelled from the spec: a bitmap is acceptable when its header is intact,
its bit depth is 1 and both dimensions are positive.  (The bmp2c tool is
missing from the repository.) -/
def validFormat (bmp : BmpFile) : Bool :=
  bmp.headerOk && bmp.bitDepth == 1 && bmp.width != 0 && bmp.height != 0

/-- Modelled from the spec: `convert(bitmap, options) -> RenderedOutput`,
failing with `FormatError` on a corrupt header, bit depth other than 1 or a
zero dimension, and with `IOError` when the source cannot be read or the
destination cannot be written; errors are reported immediately and terminate
the operation.  (The bmp2c tool is missing from the repository.) -/
def convert (w : World) (opts : Options) : Except ConvError RenderedOutput :=
  match w.source with
  | none => .error .ioError
  | some bmp =>
    if validFormat bmp = false then .error .formatError
    else if w.destWritable = false then .error .ioError
    else .ok (render opts bmp.width bmp.height (pack bmp.pixels))

/-- Modelled from the spec: the tool's run: exit status 0 and the full
rendered text written to the destination on success; a non-zero exit status
and an untouched destination on any failure.  (The bmp2c tool is missing from
the repository.) -/
def runTool (w : World) (opts : Options) : Nat × Option RenderedOutput :=
  match convert w opts with
  | .error _ => (1, w.dest)
  | .ok out => (0, some out)

/-- The pixel matrix of the example image, obtained by unpacking the
artifact's byte array at its declared dimensions. -/
def examplePixels : List (List Bool) :=
  unpack 16 8 Example16x8

/-- A small 10-by-2 pixel matrix whose width is not a multiple of 8, used to
exercise the padding of a row's last byte. -/
def demoPixels : List (List Bool) :=
  [[true, false, true, true, false, false, true, false, true, true],
   [false, true, true, false, true, false, false, true, false, true]]

/-- A concrete environment: a readable, valid 1-bpp 16x8 source and a
writable, not yet existing destination. -/
def exampleWorld : World :=
  { source := some
      { headerOk := true, bitDepth := 1, width := 16, height := 8, pixels := examplePixels }
    destWritable := true
    dest := none }

/-! ### Basic lemmas about the chunking and packing primitives -/

theorem toChunks_nil {α : Type} (k : Nat) : toChunks k ([] : List α) = [] := by
  rw [toChunks]

theorem toChunks_cons {α : Type} (k : Nat) (x : α) (xs : List α) :
    toChunks k (x :: xs) = (x :: xs).take k :: toChunks k (xs.drop (k - 1)) := by
  rw [toChunks]

theorem toChunks_eq_cons {α : Type} (k : Nat) (l : List α) (hl : l ≠ []) (hk : 1 ≤ k) :
    toChunks k l = l.take k :: toChunks k (l.drop k) := by
  obtain ⟨j, rfl⟩ : ∃ j, k = j + 1 := ⟨k - 1, by omega⟩
  cases l with
  | nil => exact absurd rfl hl
  | cons x xs =>
    rw [toChunks_cons]
    simp

theorem toChunks_nil_iff {α : Type} (k : Nat) (l : List α) :
    toChunks k l = [] ↔ l = [] := by
  cases l with
  | nil => simp [toChunks_nil]
  | cons x xs => simp [toChunks_cons]

theorem toChunks8_length {α : Type} (l : List α) :
    (toChunks 8 l).length = (l.length + 7) / 8 := by
  suffices h : ∀ n (l : List α), l.length ≤ n → (toChunks 8 l).length = (l.length + 7) / 8 from
    h l.length l le_rfl
  intro n
  induction n with
  | zero =>
    intro l hl
    have : l = [] := List.eq_nil_of_length_eq_zero (by omega)
    subst this
    simp [toChunks_nil]
  | succ n ih =>
    intro l hl
    cases l with
    | nil => simp [toChunks_nil]
    | cons x xs =>
      rw [toChunks_cons]
      have h1 := ih (xs.drop (8 - 1))
        (by simp only [List.length_drop]; simp only [List.length_cons] at hl; omega)
      simp only [List.length_cons, h1, List.length_drop]
      omega

theorem toChunks_flatten {α : Type} (k : Nat) (hk : 1 ≤ k) (l : List α) :
    (toChunks k l).flatten = l := by
  suffices h : ∀ n (l : List α), l.length ≤ n → (toChunks k l).flatten = l from
    h l.length l le_rfl
  intro n
  induction n with
  | zero =>
    intro l hl
    have : l = [] := List.eq_nil_of_length_eq_zero (by omega)
    subst this
    simp [toChunks_nil]
  | succ n ih =>
    intro l hl
    cases l with
    | nil => simp [toChunks_nil]
    | cons x xs =>
      rw [toChunks_eq_cons k (x :: xs) (by simp) hk]
      rw [List.flatten_cons, ih ((x :: xs).drop k)
        (by simp only [List.length_drop, List.length_cons]
            simp only [List.length_cons] at hl
            omega)]
      exact List.take_append_drop k (x :: xs)

theorem mem_toChunks {α : Type} (k : Nat) (hk : 1 ≤ k) (l c : List α) :
    c ∈ toChunks k l → c ≠ [] ∧ c.length ≤ k := by
  suffices h : ∀ n (l : List α), l.length ≤ n → c ∈ toChunks k l → c ≠ [] ∧ c.length ≤ k from
    h l.length l le_rfl
  intro n
  induction n with
  | zero =>
    intro l hl hc
    have : l = [] := List.eq_nil_of_length_eq_zero (by omega)
    subst this
    simp [toChunks_nil] at hc
  | succ n ih =>
    intro l hl hc
    cases l with
    | nil => simp [toChunks_nil] at hc
    | cons x xs =>
      rw [toChunks_cons] at hc
      rcases List.mem_cons.mp hc with h | h
      · subst h
        constructor
        · obtain ⟨j, rfl⟩ : ∃ j, k = j + 1 := ⟨k - 1, by omega⟩
          simp [List.take_cons]
        · simp [List.length_take]
      · exact ih (xs.drop (k - 1))
          (by simp only [List.length_drop]; simp only [List.length_cons] at hl; omega) h

theorem toChunks_getD_length {α : Type} (k : Nat) (hk : 1 ≤ k) (l : List α) :
    ∀ i, i + 1 < (toChunks k l).length → ((toChunks k l).getD i []).length = k := by
  suffices h : ∀ n (l : List α), l.length ≤ n →
      ∀ i, i + 1 < (toChunks k l).length → ((toChunks k l).getD i []).length = k from
    h l.length l le_rfl
  intro n
  induction n with
  | zero =>
    intro l hl i hi
    have : l = [] := List.eq_nil_of_length_eq_zero (by omega)
    subst this
    simp [toChunks_nil] at hi
  | succ n ih =>
    intro l hl i hi
    cases l with
    | nil => simp [toChunks_nil] at hi
    | cons x xs =>
      rw [toChunks_cons] at hi ⊢
      cases i with
      | zero =>
        rw [List.getD_cons_zero]
        have hne : toChunks k (xs.drop (k - 1)) ≠ [] := by
          intro hcon
          rw [hcon] at hi
          simp at hi
        have hxs : ¬ (xs.drop (k - 1) = []) := fun hcon =>
          hne ((toChunks_nil_iff k _).mpr hcon)
        have hlen : k - 1 < xs.length := by
          by_contra hcon
          exact hxs (List.drop_eq_nil_iff.mpr (by omega))
        simp only [List.length_take, List.length_cons]
        omega
      | succ i =>
        rw [List.getD_cons_succ]
        apply ih (xs.drop (k - 1))
          (by simp only [List.length_drop]; simp only [List.length_cons] at hl; omega)
        simp only [List.length_cons] at hi
        omega

theorem packByte_testBit (l : List Bool) : ∀ i, (packByte l).testBit i = l.getD i false := by
  induction l with
  | nil => intro i; simp [packByte]
  | cons b rest ih =>
    intro i
    cases i with
    | zero =>
      cases b <;> simp [packByte, Nat.testBit_zero, Nat.add_mul_mod_self_left]
    | succ i =>
      have h2 : ((if b then 1 else 0) + 2 * packByte rest) / 2 = packByte rest := by
        have ha : (if b then 1 else 0) ≤ 1 := by cases b <;> simp
        omega
      rw [packByte, Nat.testBit_add_one, h2, ih i, List.getD_cons_succ]

theorem byteToBits_eq (b : Nat) :
    byteToBits b = [b.testBit 0, b.testBit 1, b.testBit 2, b.testBit 3,
      b.testBit 4, b.testBit 5, b.testBit 6, b.testBit 7] := rfl

theorem byteToBits_length (b : Nat) : (byteToBits b).length = 8 := by
  rw [byteToBits_eq]
  rfl

theorem byteToBits_packByte (l : List Bool) (hl : l.length ≤ 8) :
    byteToBits (packByte l) = l ++ List.replicate (8 - l.length) false := by
  rcases l with _ | ⟨a, _ | ⟨b, _ | ⟨c, _ | ⟨d, _ | ⟨e, _ | ⟨f, _ | ⟨g, _ | ⟨m, _ | ⟨p, t⟩⟩⟩⟩⟩⟩⟩⟩⟩
  all_goals first
    | (simp only [byteToBits_eq, packByte_testBit]; rfl)
    | (simp only [List.length_cons] at hl; omega)

theorem map_getD_lt {α β : Type} (f : α → β) (d : α) (d2 : β) :
    ∀ (l : List α) (j : Nat), j < l.length → (l.map f).getD j d2 = f (l.getD j d) := by
  intro l
  induction l with
  | nil => intro j hj; simp at hj
  | cons x xs ih =>
    intro j hj
    cases j with
    | zero => simp
    | succ j =>
      simp only [List.map_cons, List.getD_cons_succ]
      exact ih j (by simp only [List.length_cons] at hj; omega)

theorem flatten_getD_uniform {α : Type} (m : Nat) (d : α) :
    ∀ (L : List (List α)), (∀ c ∈ L, c.length = m) → ∀ r j, r < L.length → j < m →
      L.flatten.getD (r * m + j) d = (L.getD r []).getD j d := by
  intro L
  induction L with
  | nil => intro _ r j hr _; simp at hr
  | cons c rest ih =>
    intro hm r j hr hj
    have hc : c.length = m := hm c (by simp)
    cases r with
    | zero =>
      simp only [List.flatten_cons, Nat.zero_mul, Nat.zero_add, List.getD_cons_zero]
      exact List.getD_append _ _ _ _ (by omega)
    | succ r =>
      simp only [List.flatten_cons, List.getD_cons_succ]
      have hrm : (r + 1) * m = r * m + m := by ring
      rw [List.getD_append_right _ _ _ _ (by omega)]
      have hidx : (r + 1) * m + j - c.length = r * m + j := by omega
      rw [hidx]
      exact ih (fun c hcm => hm c (List.mem_cons_of_mem _ hcm)) r j
        (by simp only [List.length_cons] at hr; omega) hj

theorem flatten_slice_uniform {α : Type} (m : Nat) :
    ∀ (L : List (List α)), (∀ c ∈ L, c.length = m) → ∀ r, r < L.length →
      (L.flatten.drop (r * m)).take m = L.getD r [] := by
  intro L
  induction L with
  | nil => intro _ r hr; simp at hr
  | cons c rest ih =>
    intro hm r hr
    have hc : c.length = m := hm c (by simp)
    cases r with
    | zero =>
      simp only [Nat.zero_mul, List.drop_zero, List.flatten_cons, List.getD_cons_zero]
      rw [← hc]
      exact List.take_left' rfl
    | succ r =>
      simp only [List.flatten_cons, List.getD_cons_succ]
      rw [show (r + 1) * m = c.length + r * m by rw [hc]; ring]
      rw [← List.drop_drop, List.drop_left]
      exact ih (fun c hcm => hm c (List.mem_cons_of_mem _ hcm)) r
        (by simp only [List.length_cons] at hr; omega)

theorem range_map_getD {α : Type} (d : α) :
    ∀ (l : List α), (List.range l.length).map (fun r => l.getD r d) = l := by
  intro l
  induction l with
  | nil => simp
  | cons x xs ih =>
    rw [List.length_cons, List.range_succ_eq_map]
    simp only [List.map_cons, List.getD_cons_zero, List.map_map, Function.comp_def,
      Nat.succ_eq_add_one, List.getD_cons_succ]
    rw [ih]

theorem getD_replicate_self {α : Type} (d : α) :
    ∀ (p i : Nat), (List.replicate p d).getD i d = d := by
  intro p
  induction p with
  | zero => intro i; simp
  | succ p ih =>
    intro i
    cases i with
    | zero => simp [List.replicate_succ]
    | succ i => simp only [List.replicate_succ, List.getD_cons_succ]; exact ih i

theorem packRow_length (row : List Bool) :
    (packRow row).length = bytesPerRow row.length := by
  rw [packRow, List.length_map, toChunks8_length]
  rfl

theorem packRow_flatMap :
    ∀ (row : List Bool), (packRow row).flatMap byteToBits
      = row ++ List.replicate (bytesPerRow row.length * 8 - row.length) false := by
  suffices h : ∀ n (row : List Bool), row.length ≤ n →
      (packRow row).flatMap byteToBits
        = row ++ List.replicate (bytesPerRow row.length * 8 - row.length) false from
    fun row => h row.length row le_rfl
  intro n
  induction n with
  | zero =>
    intro row hrow
    have : row = [] := List.eq_nil_of_length_eq_zero (by omega)
    subst this
    simp [packRow, toChunks_nil, bytesPerRow]
  | succ n ih =>
    intro row hrow
    cases row with
    | nil => simp [packRow, toChunks_nil, bytesPerRow]
    | cons x xs =>
      have hstep : packRow (x :: xs) = packByte ((x :: xs).take 8) :: packRow (xs.drop 7) := by
        rw [packRow, toChunks_cons, List.map_cons]
        rfl
      have htake : ((x :: xs).take 8).length ≤ 8 := by
        simp [List.length_take]
      have hdrop : (xs.drop 7).length ≤ n := by
        simp only [List.length_drop]
        simp only [List.length_cons] at hrow
        omega
      rw [hstep, List.flatMap_cons, byteToBits_packByte _ htake, ih (xs.drop 7) hdrop]
      by_cases h8 : xs.length ≤ 7
      · have ht : (x :: xs).take 8 = x :: xs :=
          List.take_of_length_le (by simp only [List.length_cons]; omega)
        have hd : xs.drop 7 = [] := List.drop_eq_nil_iff.mpr (by omega)
        rw [ht, hd]
        have c1 : 8 - (x :: xs).length = bytesPerRow (x :: xs).length * 8 - (x :: xs).length := by
          simp only [List.length_cons, bytesPerRow]
          omega
        rw [c1]
        simp [bytesPerRow]
      · have c1 : 8 - ((x :: xs).take 8).length = 0 := by
          simp only [List.length_take, List.length_cons]
          omega
        rw [c1]
        simp only [List.replicate_zero, List.append_nil]
        rw [← List.append_assoc]
        have hd : xs.drop 7 = (x :: xs).drop 8 := rfl
        rw [hd, List.take_append_drop]
        congr 2
        simp only [List.length_drop, List.length_cons, bytesPerRow]
        omega

theorem flatMap_byteToBits_length (l : List Nat) :
    (l.flatMap byteToBits).length = l.length * 8 := by
  induction l with
  | nil => simp
  | cons b rest ih =>
    rw [List.flatMap_cons, List.length_append, byteToBits_length, ih]
    simp only [List.length_cons]
    ring

theorem packByte_byteToBits : ∀ b < 256, packByte (byteToBits b) = b := by
  decide

theorem packRow_inv (bs : List Nat) :
    (∀ b ∈ bs, b < 256) → packRow (bs.flatMap byteToBits) = bs := by
  induction bs with
  | nil =>
    intro
    simp [packRow, toChunks_nil]
  | cons b rest ih =>
    intro hb
    have hlen : (byteToBits b).length = 8 := byteToBits_length b
    have hne : byteToBits b ++ rest.flatMap byteToBits ≠ [] := by
      intro hcon
      have := congrArg List.length hcon
      simp [hlen] at this
    rw [List.flatMap_cons, packRow, toChunks_eq_cons 8 _ hne (by omega)]
    rw [List.take_left' hlen, List.drop_left' hlen, List.map_cons]
    rw [packByte_byteToBits b (hb b (by simp))]
    have htail : (toChunks 8 (rest.flatMap byteToBits)).map packByte
        = packRow (rest.flatMap byteToBits) := rfl
    rw [htail, ih (fun c hc => hb c (List.mem_cons_of_mem _ hc))]

theorem flatten_slices {α : Type} :
    ∀ (h m : Nat) (l : List α), l.length = h * m →
      ((List.range h).map (fun r => (l.drop (r * m)).take m)).flatten = l := by
  intro h
  induction h with
  | zero =>
    intro m l hl
    have : l = [] := List.eq_nil_of_length_eq_zero (by omega)
    subst this
    simp
  | succ h ih =>
    intro m l hl
    rw [List.range_succ_eq_map]
    simp only [List.map_cons, List.map_map, Nat.zero_mul, List.drop_zero, List.flatten_cons,
      Function.comp_def, Nat.succ_eq_add_one]
    have hstep : ∀ r : Nat, (l.drop ((r + 1) * m)).take m = ((l.drop m).drop (r * m)).take m := by
      intro r
      rw [List.drop_drop]
      congr 2
      ring
    have hmap : ((List.range h).map fun r => (l.drop ((r + 1) * m)).take m)
        = (List.range h).map fun r => ((l.drop m).drop (r * m)).take m := by
      exact List.map_congr_left (fun r _ => hstep r)
    rw [hmap, ih m (l.drop m) (by
      simp only [List.length_drop]
      have e : (h + 1) * m = h * m + m := by ring
      omega)]
    exact List.take_append_drop m l

theorem byteToBits_getD (b : Nat) (k : Nat) (hk : k < 8) :
    (byteToBits b).getD k false = b.testBit k := by
  rw [byteToBits_eq]
  interval_cases k <;> rfl

theorem getD_mem_of_lt {α : Type} (l : List α) (d : α) (r : Nat) (hr : r < l.length) :
    l.getD r d ∈ l := by
  rw [List.getD_eq_getElem l d hr]
  exact List.getElem_mem hr

/-- C1: for every 1-bpp bitmap (a pixel matrix whose rows all have length `w`),
the packing function processes rows top-to-bottom and packs each group of up
to 8 consecutive pixels left-to-right into one byte, leftmost pixel in bit 0
(least significant), subsequent pixels in increasing bit positions, a black
pixel (`true`) contributing bit value 1; byte `r * bytesPerRow w + c / 8` of
the row-major packed sequence holds pixel `(r, c)` in bit `c % 8`, and when
`w` is not a multiple of 8 the unused high-order bits of each row's last byte
are zero. -/
theorem pack_bits (pixels : List (List Bool)) (w : Nat)
    (hw : ∀ row ∈ pixels, row.length = w) :
    (∀ r c, r < pixels.length → c < w →
      ((pack pixels).getD (r * bytesPerRow w + c / 8) 0).testBit (c % 8)
        = (pixels.getD r []).getD c false)
    ∧ (∀ r j k, r < pixels.length → j < bytesPerRow w → k < 8 → w ≤ j * 8 + k →
      ((pack pixels).getD (r * bytesPerRow w + j) 0).testBit k = false) := by
  have hlenmap : ∀ c ∈ pixels.map packRow, c.length = bytesPerRow w := by
    intro c hc
    obtain ⟨row, hrow, rfl⟩ := List.mem_map.mp hc
    rw [packRow_length, hw row hrow]
  have hrowlen : ∀ r, r < pixels.length → (pixels.getD r []).length = w := by
    intro r hr
    exact hw _ (getD_mem_of_lt pixels [] r hr)
  have hbyte : ∀ r j, r < pixels.length → j < bytesPerRow w →
      (pack pixels).getD (r * bytesPerRow w + j) 0 = (packRow (pixels.getD r [])).getD j 0 := by
    intro r j hr hj
    rw [pack]
    rw [flatten_getD_uniform (bytesPerRow w) 0 (pixels.map packRow) hlenmap r j
      (by simpa using hr) hj]
    rw [map_getD_lt packRow ([] : List Bool) ([] : List Nat) pixels r hr]
  have hrowbits : ∀ r j k, r < pixels.length → j < bytesPerRow w → k < 8 →
      ((packRow (pixels.getD r [])).getD j 0).testBit k
        = ((pixels.getD r []) ++
            List.replicate (bytesPerRow w * 8 - w) false).getD (j * 8 + k) false := by
    intro r j k hr hj hk
    have hrw : (pixels.getD r []).length = w := hrowlen r hr
    have hL : ∀ c ∈ (packRow (pixels.getD r [])).map byteToBits, c.length = 8 := by
      intro c hc
      obtain ⟨b, _, rfl⟩ := List.mem_map.mp hc
      exact byteToBits_length b
    have h2 := flatten_getD_uniform 8 false ((packRow (pixels.getD r [])).map byteToBits) hL j k
      (by rw [List.length_map, packRow_length, hrw]; exact hj) hk
    rw [← List.flatMap_def] at h2
    rw [packRow_flatMap, hrw] at h2
    rw [map_getD_lt byteToBits 0 ([] : List Bool) (packRow (pixels.getD r [])) j
      (by simp only [packRow_length, hrw]; exact hj)] at h2
    rw [byteToBits_getD _ k hk] at h2
    exact h2.symm
  constructor
  · intro r c hr hc
    have hj : c / 8 < bytesPerRow w := by
      simp only [bytesPerRow]
      omega
    have hjk : c / 8 * 8 + c % 8 = c := by omega
    rw [hbyte r (c / 8) hr hj, hrowbits r (c / 8) (c % 8) hr hj (by omega), hjk]
    exact List.getD_append _ _ _ _ (by rw [hrowlen r hr]; omega)
  · intro r j k hr hj hk hpad
    rw [hbyte r j hr hj, hrowbits r j k hr hj hk]
    rw [List.getD_append_right _ _ _ _ (by rw [hrowlen r hr]; omega)]
    exact getD_replicate_self false _ _

theorem pack_bits_witness :
    (((pack demoPixels).getD (1 * bytesPerRow 10 + 9 / 8) 0).testBit (9 % 8)
        = (demoPixels.getD 1 []).getD 9 false)
    ∧ ((pack demoPixels).getD (1 * bytesPerRow 10 + 1) 0).testBit 5 = false :=
  ⟨(pack_bits demoPixels 10 (by decide)).1 1 9 (by decide) (by decide),
   (pack_bits demoPixels 10 (by decide)).2 1 1 5 (by decide) (by decide) (by decide) (by decide)⟩

/-- C2: for every valid 1-bpp bitmap (all rows of length `w`), the packed byte
sequence has length `height * ceil(w/8)`, the height being the number of
rows. -/
theorem pack_length (pixels : List (List Bool)) (w : Nat)
    (hw : ∀ row ∈ pixels, row.length = w) :
    (pack pixels).length = pixels.length * bytesPerRow w := by
  induction pixels with
  | nil => simp [pack]
  | cons row rest ih =>
    rw [pack, List.map_cons, List.flatten_cons, List.length_append]
    have h1 : (packRow row).length = bytesPerRow w := by
      rw [packRow_length, hw row (by simp)]
    have hp : (rest.map packRow).flatten = pack rest := rfl
    rw [h1, hp, ih (fun r hr => hw r (List.mem_cons_of_mem _ hr)), List.length_cons]
    ring

theorem pack_length_witness :
    (pack examplePixels).length = examplePixels.length * bytesPerRow 16
    ∧ examplePixels.length * bytesPerRow 16 = 16
    ∧ Example16x8.length = 16 :=
  ⟨pack_length examplePixels 16 (by decide), by decide, by decide⟩

/-- C3: unpacking the packed byte sequence with the same convention
(row-major, LSB-first within each byte, black = 1), at the bitmap's width and
height, reproduces the original pixel matrix exactly. -/
theorem unpack_pack (pixels : List (List Bool)) (w : Nat)
    (hw : ∀ row ∈ pixels, row.length = w) :
    unpack w pixels.length (pack pixels) = pixels := by
  have hlenmap : ∀ c ∈ pixels.map packRow, c.length = bytesPerRow w := by
    intro c hc
    obtain ⟨row, hrow, rfl⟩ := List.mem_map.mp hc
    rw [packRow_length, hw row hrow]
  have hrow : ∀ r, r < pixels.length →
      ((((pack pixels).drop (r * bytesPerRow w)).take (bytesPerRow w)).flatMap byteToBits).take w
        = pixels.getD r [] := by
    intro r hr
    have hslice : ((pack pixels).drop (r * bytesPerRow w)).take (bytesPerRow w)
        = packRow (pixels.getD r []) := by
      rw [pack]
      rw [flatten_slice_uniform (bytesPerRow w) (pixels.map packRow) hlenmap r
        (by simpa using hr)]
      rw [map_getD_lt packRow ([] : List Bool) ([] : List Nat) pixels r hr]
    rw [hslice, packRow_flatMap]
    exact List.take_left' (hw _ (getD_mem_of_lt pixels [] r hr))
  rw [unpack]
  rw [List.map_congr_left (fun r hrmem => hrow r (List.mem_range.mp hrmem))]
  exact range_map_getD [] pixels

theorem unpack_pack_witness :
    unpack 16 examplePixels.length (pack examplePixels) = examplePixels :=
  unpack_pack examplePixels 16 (by decide)

/-- C10: when the width is a multiple of 8, every byte sequence of length
`height * width/8` (of byte values) is a valid packed image with no padding
bits, and packing the matrix obtained by unpacking it returns the same byte
sequence. -/
theorem pack_unpack (bytes : List Nat) (w h : Nat)
    (hmod : w % 8 = 0) (hlen : bytes.length = h * (w / 8)) (hb : ∀ b ∈ bytes, b < 256) :
    pack (unpack w h bytes) = bytes := by
  have hbpr : bytesPerRow w = w / 8 := by
    rw [bytesPerRow]
    omega
  rw [unpack, pack, List.map_map]
  have hrow : ∀ r, r < h →
      (packRow ∘ fun r =>
          (((bytes.drop (r * bytesPerRow w)).take (bytesPerRow w)).flatMap byteToBits).take w) r
        = (bytes.drop (r * (w / 8))).take (w / 8) := by
    intro r hr
    simp only [Function.comp_apply, hbpr]
    have hmul : r * (w / 8) + w / 8 ≤ h * (w / 8) := by
      have h1 : (r + 1) * (w / 8) ≤ h * (w / 8) := Nat.mul_le_mul_right _ (by omega)
      have h2 : (r + 1) * (w / 8) = r * (w / 8) + w / 8 := by ring
      omega
    have hslice_len : ((bytes.drop (r * (w / 8))).take (w / 8)).length = w / 8 := by
      simp only [List.length_take, List.length_drop]
      omega
    have htake_all :
        ((((bytes.drop (r * (w / 8))).take (w / 8)).flatMap byteToBits).take w)
          = ((bytes.drop (r * (w / 8))).take (w / 8)).flatMap byteToBits := by
      apply List.take_of_length_le
      rw [flatMap_byteToBits_length, hslice_len]
      omega
    rw [htake_all]
    apply packRow_inv
    intro b hbmem
    exact hb b (List.mem_of_mem_drop (List.mem_of_mem_take hbmem))
  rw [List.map_congr_left (fun r hrmem => hrow r (List.mem_range.mp hrmem))]
  exact flatten_slices h (w / 8) bytes hlen

theorem pack_unpack_witness :
    pack (unpack 16 8 Example16x8) = Example16x8 :=
  pack_unpack Example16x8 16 8 (by decide) (by decide) (by decide)

/-- C4: on the byte sequence of the example artifact, with dimensions 16x8
and `emit_dims` set, the renderer declares an array of exactly 16 elements
equal to that sequence in order (each formatted as its `0xHH` value), and
defines width and height constants with values 16 and 8. -/
theorem render_example :
    (render { emit_dims := true } 16 8 Example16x8).values.length = 16
    ∧ (render { emit_dims := true } 16 8 Example16x8).values
        = ["0x00", "0x00", "0xFF", "0x81", "0x81", "0xFF", "0x00", "0x00",
           "0x55", "0xAA", "0xCC", "0x33", "0x0F", "0xF0", "0x18", "0x18"]
    ∧ (render { emit_dims := true } 16 8 Example16x8).widthConst = some 16
    ∧ (render { emit_dims := true } 16 8 Example16x8).heightConst = some 8 := by
  decide

/-- C5: the renderer formats every byte as `0xHH` (the string is exactly
`0`, `x` and two uppercase hexadecimal digits), separates consecutive values
with a comma and a space (`String.intercalate ", "` per wrapped line), wraps
the value list at `values_per_line` values per line (every line but the last
carries exactly that many values, none is empty, none longer, and the lines
carry all values in order), and the default of `values_per_line` is 12. -/
theorem render_format (bytes : List Nat) (opts : Options) (w h : Nat) :
    ((render opts w h bytes).values = bytes.map hexByte)
    ∧ (∀ b ∈ bytes, ∃ c1 c2, hexByte b = String.mk ['0', 'x', c1, c2]
        ∧ isUpperHexDigit c1 = true ∧ isUpperHexDigit c2 = true)
    ∧ ((render opts w h bytes).lines
        = (toChunks opts.values_per_line (bytes.map hexByte)).map
            (fun vs => String.intercalate ", " vs))
    ∧ (1 ≤ opts.values_per_line →
        (toChunks opts.values_per_line (bytes.map hexByte)).flatten = bytes.map hexByte)
    ∧ (1 ≤ opts.values_per_line →
        ∀ c ∈ toChunks opts.values_per_line (bytes.map hexByte),
          c ≠ [] ∧ c.length ≤ opts.values_per_line)
    ∧ (1 ≤ opts.values_per_line →
        ∀ i, i + 1 < (toChunks opts.values_per_line (bytes.map hexByte)).length →
          ((toChunks opts.values_per_line (bytes.map hexByte)).getD i []).length
            = opts.values_per_line)
    ∧ ({ emit_dims := false : Options }).values_per_line = 12 := by
  refine ⟨rfl, ?_, rfl,
    fun hk => toChunks_flatten _ hk _,
    fun hk c hc => mem_toChunks _ hk _ c hc,
    fun hk => toChunks_getD_length _ hk _,
    rfl⟩
  intro b _
  refine ⟨hexDigit (b / 16 % 16), hexDigit (b % 16), rfl, ?_, ?_⟩
  · have hd : ∀ n < 16, isUpperHexDigit (hexDigit n) = true := by decide
    exact hd _ (Nat.mod_lt _ (by omega))
  · have hd : ∀ n < 16, isUpperHexDigit (hexDigit n) = true := by decide
    exact hd _ (Nat.mod_lt _ (by omega))

theorem render_format_witness :
    ∃ c1 c2, hexByte 0xAA = String.mk ['0', 'x', c1, c2]
      ∧ isUpperHexDigit c1 = true ∧ isUpperHexDigit c2 = true :=
  (render_format Example16x8 { emit_dims := true } 16 8).2.1 0xAA (by decide)

/-- C8: the packed byte sequence and the rendered output are deterministic
functions of the bitmap (and the options and dimensions) alone: equal inputs
give identical packed sequences and identical rendered outputs. -/
theorem pack_render_deterministic (b1 b2 : List (List Bool)) (o1 o2 : Options)
    (w1 h1 w2 h2 : Nat) (hb : b1 = b2) (ho : o1 = o2) (hw : w1 = w2) (hh : h1 = h2) :
    pack b1 = pack b2 ∧ render o1 w1 h1 (pack b1) = render o2 w2 h2 (pack b2) := by
  subst hb
  subst ho
  subst hw
  subst hh
  exact ⟨rfl, rfl⟩

theorem pack_render_deterministic_witness :
    pack examplePixels = pack examplePixels
    ∧ render { emit_dims := true } 16 8 (pack examplePixels)
        = render { emit_dims := true } 16 8 (pack examplePixels) :=
  pack_render_deterministic examplePixels examplePixels
    { emit_dims := true } { emit_dims := true } 16 8 16 8 rfl rfl rfl rfl

/-- C9: the generated example artifact is internally consistent: the declared
array length (16) equals the number of initializer values, equals the byte
count stated in the header comment, and equals
`EXAMPLE16X8_HEIGHT * ceil(EXAMPLE16X8_WIDTH / 8)`. -/
theorem example_consistent :
    exampleDeclaredLength = Example16x8.length
    ∧ Example16x8.length = exampleHeaderByteCount
    ∧ Example16x8.length = EXAMPLE16X8_HEIGHT * bytesPerRow EXAMPLE16X8_WIDTH := by
  decide

theorem validFormat_false_iff (bmp : BmpFile) :
    validFormat bmp = false
      ↔ (bmp.headerOk = false ∨ bmp.bitDepth ≠ 1 ∨ bmp.width = 0 ∨ bmp.height = 0) := by
  obtain ⟨ho, bd, wd, ht, px⟩ := bmp
  simp only [validFormat]
  cases ho
  · simp
  · simp
    tauto

/-- C6: `convert` fails with `FormatError` exactly when the source is readable
but its header is corrupt, its bit depth is not 1 or a dimension is zero; it
fails with `IOError` exactly when the source cannot be read, or the source is
acceptable but the destination cannot be written; on any failure the run
leaves the destination untouched, and on success the destination receives the
full rendered output. -/
theorem convert_errors (w : World) (opts : Options) :
    (convert w opts = .error .formatError
      ↔ ∃ bmp, w.source = some bmp
          ∧ (bmp.headerOk = false ∨ bmp.bitDepth ≠ 1 ∨ bmp.width = 0 ∨ bmp.height = 0))
    ∧ (convert w opts = .error .ioError
      ↔ (w.source = none
          ∨ ∃ bmp, w.source = some bmp ∧ validFormat bmp = true ∧ w.destWritable = false))
    ∧ (∀ e, convert w opts = .error e → runTool w opts = (1, w.dest))
    ∧ (∀ out, convert w opts = .ok out → runTool w opts = (0, some out)) := by
  rcases hsrc : w.source with _ | bmp
  · have hc : convert w opts = .error .ioError := by
      simp [convert, hsrc]
    refine ⟨?_, ?_, ?_, ?_⟩
    · constructor
      · intro h
        rw [hc] at h
        exact absurd h (by simp)
      · rintro ⟨bmp', hbmp', _⟩
        exact absurd hbmp' (by simp)
    · constructor
      · intro _
        exact Or.inl rfl
      · intro _
        exact hc
    · intro e _
      simp [runTool, hc]
    · intro out hout
      rw [hc] at hout
      exact absurd hout (by simp)
  · by_cases hvf : validFormat bmp = false
    · have hc : convert w opts = .error .formatError := by
        simp [convert, hsrc, hvf]
      refine ⟨?_, ?_, ?_, ?_⟩
      · constructor
        · intro _
          exact ⟨bmp, rfl, (validFormat_false_iff bmp).mp hvf⟩
        · intro _
          exact hc
      · constructor
        · intro h
          rw [hc] at h
          exact absurd h (by simp)
        · rintro (hnone | ⟨bmp', hbmp', hvt', _⟩)
          · exact absurd hnone (by simp)
          · injection hbmp' with hbe
            subst hbe
            rw [hvf] at hvt'
            exact absurd hvt' (by simp)
      · intro e _
        simp [runTool, hc]
      · intro out hout
        rw [hc] at hout
        exact absurd hout (by simp)
    · have hvt : validFormat bmp = true := by
        cases hvfb : validFormat bmp
        · exact absurd hvfb hvf
        · rfl
      by_cases hdw : w.destWritable = false
      · have hc : convert w opts = .error .ioError := by
          simp [convert, hsrc, hvt, hdw]
        refine ⟨?_, ?_, ?_, ?_⟩
        · constructor
          · intro h
            rw [hc] at h
            exact absurd h (by simp)
          · rintro ⟨bmp', hbmp', hcond⟩
            injection hbmp' with hbe
            subst hbe
            have hfalse := (validFormat_false_iff bmp).mpr hcond
            rw [hvt] at hfalse
            exact absurd hfalse (by simp)
        · constructor
          · intro _
            exact Or.inr ⟨bmp, rfl, hvt, hdw⟩
          · intro _
            exact hc
        · intro e _
          simp [runTool, hc]
        · intro out hout
          rw [hc] at hout
          exact absurd hout (by simp)
      · have hdt : w.destWritable = true := by
          cases hdb : w.destWritable
          · exact absurd hdb hdw
          · rfl
        have hc : convert w opts = .ok (render opts bmp.width bmp.height (pack bmp.pixels)) := by
          simp [convert, hsrc, hvt, hdt]
        refine ⟨?_, ?_, ?_, ?_⟩
        · constructor
          · intro h
            rw [hc] at h
            exact absurd h (by simp)
          · rintro ⟨bmp', hbmp', hcond⟩
            injection hbmp' with hbe
            subst hbe
            have hfalse := (validFormat_false_iff bmp).mpr hcond
            rw [hvt] at hfalse
            exact absurd hfalse (by simp)
        · constructor
          · intro h
            rw [hc] at h
            exact absurd h (by simp)
          · rintro (hnone | ⟨bmp', hbmp', _, hdf⟩)
            · exact absurd hnone (by simp)
            · rw [hdf] at hdt
              exact Bool.noConfusion hdt
        · intro e he
          rw [hc] at he
          exact absurd he (by simp)
        · intro out hout
          rw [hc] at hout
          have hre : render opts bmp.width bmp.height (pack bmp.pixels) = out := by
            injection hout
          simp [runTool, hc, hre]

theorem convert_errors_witness :
    runTool { source := none, destWritable := true, dest := none } { emit_dims := true }
      = (1, none) :=
  (convert_errors { source := none, destWritable := true, dest := none }
    { emit_dims := true }).2.2.1 ConvError.ioError rfl

/-- C7: the tool exits with status 0 exactly when the source is a readable,
acceptable 1-bpp bitmap and the destination is writable, in which case the
destination receives the full rendered output; on every other input the exit
status is non-zero (namely 1) and the destination is untouched. -/
theorem runTool_exit (w : World) (opts : Options) :
    ((runTool w opts).1 = 0
      ↔ ∃ bmp, w.source = some bmp ∧ validFormat bmp = true ∧ w.destWritable = true)
    ∧ (∀ bmp, w.source = some bmp → validFormat bmp = true → w.destWritable = true →
        runTool w opts = (0, some (render opts bmp.width bmp.height (pack bmp.pixels))))
    ∧ ((runTool w opts).1 ≠ 0 → (runTool w opts).2 = w.dest)
    ∧ ((runTool w opts).1 = 0 ∨ (runTool w opts).1 = 1) := by
  rcases hsrc : w.source with _ | bmp
  · have hrt : runTool w opts = (1, w.dest) := by
      simp [runTool, convert, hsrc]
    refine ⟨?_, ?_, ?_, ?_⟩
    · rw [hrt]
      constructor
      · intro h
        exact absurd h (by simp)
      · rintro ⟨bmp', hbmp', _⟩
        exact absurd hbmp' (by simp)
    · intro bmp' hbmp'
      exact absurd hbmp' (by simp)
    · intro _
      rw [hrt]
    · rw [hrt]
      exact Or.inr rfl
  · by_cases hvf : validFormat bmp = false
    · have hrt : runTool w opts = (1, w.dest) := by
        simp [runTool, convert, hsrc, hvf]
      refine ⟨?_, ?_, ?_, ?_⟩
      · rw [hrt]
        constructor
        · intro h
          exact absurd h (by simp)
        · rintro ⟨bmp', hbmp', hvt', _⟩
          injection hbmp' with hbe
          subst hbe
          rw [hvf] at hvt'
          exact Bool.noConfusion hvt'
      · intro bmp' hbmp' hvt'
        injection hbmp' with hbe
        subst hbe
        rw [hvf] at hvt'
        exact Bool.noConfusion hvt'
      · intro _
        rw [hrt]
      · rw [hrt]
        exact Or.inr rfl
    · have hvt : validFormat bmp = true := by
        cases hvfb : validFormat bmp
        · exact absurd hvfb hvf
        · rfl
      by_cases hdw : w.destWritable = false
      · have hrt : runTool w opts = (1, w.dest) := by
          simp [runTool, convert, hsrc, hvt, hdw]
        refine ⟨?_, ?_, ?_, ?_⟩
        · rw [hrt]
          constructor
          · intro h
            exact absurd h (by simp)
          · rintro ⟨bmp', hbmp', _, hdt'⟩
            rw [hdt'] at hdw
            exact Bool.noConfusion hdw
        · intro bmp' hbmp' hvt' hdt'
          rw [hdt'] at hdw
          exact Bool.noConfusion hdw
        · intro _
          rw [hrt]
        · rw [hrt]
          exact Or.inr rfl
      · have hdt : w.destWritable = true := by
          cases hdb : w.destWritable
          · exact absurd hdb hdw
          · rfl
        have hrt : runTool w opts
            = (0, some (render opts bmp.width bmp.height (pack bmp.pixels))) := by
          simp [runTool, convert, hsrc, hvt, hdt]
        refine ⟨?_, ?_, ?_, ?_⟩
        · rw [hrt]
          constructor
          · intro _
            exact ⟨bmp, rfl, hvt, hdt⟩
          · intro _
            rfl
        · intro bmp' hbmp' _ _
          injection hbmp' with hbe
          subst hbe
          exact hrt
        · intro h
          rw [hrt] at h
          exact absurd rfl h
        · rw [hrt]
          exact Or.inl rfl

theorem runTool_exit_witness :
    (runTool exampleWorld { emit_dims := true }).1 = 0 :=
  (runTool_exit exampleWorld { emit_dims := true }).1.mpr
    ⟨{ headerOk := true, bitDepth := 1, width := 16, height := 8, pixels := examplePixels },
      rfl, rfl, rfl⟩
